import Mathlib

/-!
Shallow embedding of `image_to_tileset.py` (microaeris/image_to_tile_set).

An image is modelled as a pair of dimensions together with a total pixel
function; a pixel is a 4-channel (R,G,B,A) tuple of naturals.  The Python 2
source uses integer division throughout (`xrange`, `/` on ints), which maps
to `Nat` division here.
-/

/-- A pixel is a 4-channel (R, G, B, A) tuple. -/
abbrev Pixel := Nat × Nat × Nat × Nat

/-- The alpha channel of a pixel (index 3 of the tuple). -/
def alphaOf (p : Pixel) : Nat := p.2.2.2

/-- An image: a width, a height and a pixel function.
`pix x y` is the pixel at column `x`, row `y` (top-left origin). -/
structure Image where
  width : Nat
  height : Nat
  pix : Nat → Nat → Pixel

/-- Per-pixel match used by `tile_is_same`: the loop body `continue`s when
both alphas are 0, and otherwise requires the full 4-tuples to coincide. -/
def pixelMatch (p q : Pixel) : Bool :=
  (alphaOf p == 0 && alphaOf q == 0) || p == q

/-- Embedding of `tile_is_same(tile, new_tile)`: size check first, then a
scan of every pixel position, `y` outer and `x` inner as in the source. -/
def tile_is_same (tile new_tile : Image) : Bool :=
  if (tile.width, tile.height) ≠ (new_tile.width, new_tile.height) then
    false
  else
    (List.range tile.height).all fun y =>
      (List.range tile.width).all fun x =>
        pixelMatch (tile.pix x y) (new_tile.pix x y)

/-- Embedding of `im.crop((left, upper, right, lower))`: a new image of size
`(right - left) × (lower - upper)` whose pixel `(x, y)` is the source pixel
`(left + x, upper + y)`. -/
def crop (im : Image) (left upper right lower : Nat) : Image :=
  { width := right - left
    height := lower - upper
    pix := fun x y => im.pix (left + x) (upper + y) }

/-- The body of the dedup block in `create_tile_list`: append `new_tile`
unless some tile already in the list is `tile_is_same` to it. -/
def addTile (tile_list : List Image) (new_tile : Image) : List Image :=
  if tile_list.any (fun tile => tile_is_same tile new_tile) then tile_list
  else tile_list ++ [new_tile]

/-- Embedding of `create_tile_list(im, tile_w, tile_h)`: the nested loops
`for y in xrange(im_h / tile_h): for x in xrange(im_w / tile_w)` crop the
grid cell at `(x, y)` and conditionally append it to the accumulator. -/
def create_tile_list (im : Image) (tile_w tile_h : Nat) : List Image :=
  (List.range (im.height / tile_h)).foldl
    (fun acc y =>
      (List.range (im.width / tile_w)).foldl
        (fun acc2 x =>
          addTile acc2
            (crop im (x * tile_w) (y * tile_h)
              (x * tile_w + tile_w) (y * tile_h + tile_h)))
        acc)
    []

/-- The row-major sequence of cropped tiles, before deduplication, as the
spec describes the Tile Extractor: rows `0..rows-1` outer, columns
`0..cols-1` inner, each cell cropped to its half-open rectangle. -/
def rasterTiles (im : Image) (tile_w tile_h : Nat) : List Image :=
  (List.range (im.height / tile_h)).flatMap fun y =>
    (List.range (im.width / tile_w)).map fun x =>
      crop im (x * tile_w) (y * tile_h)
        (x * tile_w + tile_w) (y * tile_h + tile_h)

/-- Spec-side deduplicator ("keeps only first-seen unique tiles"): keep a
tile iff it matches no previously kept tile; `kept` is the list of tiles
kept so far. -/
def dedupSpecAux (kept : List Image) : List Image → List Image
  | [] => []
  | t :: ts =>
    if kept.any (fun u => tile_is_same u t) then dedupSpecAux kept ts
    else t :: dedupSpecAux (kept ++ [t]) ts

/-- Spec-side deduplication of a whole tile sequence. -/
def dedupSpec (l : List Image) : List Image := dedupSpecAux [] l

/-- The fully transparent pixel: zero in every channel. -/
def transparentPixel : Pixel := (0, 0, 0, 0)

/-- Embedding of `tileset.paste(tile, (ox, oy))`: plain overwrite of the
destination rectangle `[ox, ox + tile.width) × [oy, oy + tile.height)`. -/
def paste (dst src : Image) (ox oy : Nat) : Image :=
  { dst with
    pix := fun x y =>
      if ox ≤ x ∧ x < ox + src.width ∧ oy ≤ y ∧ y < oy + src.height then
        src.pix (x - ox) (y - oy)
      else dst.pix x y }

/-- Embedding of the `for i, tile in enumerate(tile_list)` paste loop of
`save_to_tileset`, with `i` the running index. -/
def pasteTiles (tile_w tile_h : Nat) (ts : Image) (i : Nat) :
    List Image → Image
  | [] => ts
  | tile :: rest =>
    pasteTiles tile_w tile_h
      (paste ts tile ((i % 16) * tile_w) ((i / 16) * tile_h)) (i + 1) rest

/-- Embedding of `save_to_tileset` up to (and not including) the file write:
it returns the packed tileset image.  `TILES_IN_ROW = 16`; the output width
is `N * tile_w` when `N < 16` and `16 * tile_w` otherwise, the output height
is `(N / 16 + 1) * tile_h` (Python 2 integer division), and the canvas
starts fully transparent (`Image.new('RGBA', ...)` zero-fills). -/
def save_to_tileset (tile_list : List Image) (tile_w tile_h : Nat) : Image :=
  let n := tile_list.length
  let tileset_w := if n < 16 then n * tile_w else 16 * tile_w
  let tileset_h := (n / 16 + 1) * tile_h
  pasteTiles tile_w tile_h
    { width := tileset_w, height := tileset_h
      pix := fun _ _ => transparentPixel }
    0 tile_list

/-- The destination rectangle of the tile at list index `i` in the packed
tileset: top-left corner `((i % 16) * tile_w, (i / 16) * tile_h)`. -/
def coveredBy (i tile_w tile_h x y : Nat) : Prop :=
  (i % 16) * tile_w ≤ x ∧ x < (i % 16) * tile_w + tile_w ∧
  (i / 16) * tile_h ≤ y ∧ y < (i / 16) * tile_h + tile_h

instance (i tile_w tile_h x y : Nat) :
    Decidable (coveredBy i tile_w tile_h x y) := by
  unfold coveredBy; infer_instance

/-- An image formed by a `k × k` grid of identical copies of `pattern`. -/
def gridImage (pattern : Image) (k : Nat) : Image :=
  { width := k * pattern.width
    height := k * pattern.height
    pix := fun x y => pattern.pix (x % pattern.width) (y % pattern.height) }

/-! ### Characterization of the equality predicate -/

theorem pixelMatch_iff (p q : Pixel) :
    pixelMatch p q = true ↔
      (alphaOf p = 0 ∧ alphaOf q = 0) ∨ p = q := by
  simp [pixelMatch]

theorem tile_is_same_iff (t u : Image) :
    tile_is_same t u = true ↔
      t.width = u.width ∧ t.height = u.height ∧
        ∀ y < t.height, ∀ x < t.width,
          (alphaOf (t.pix x y) = 0 ∧ alphaOf (u.pix x y) = 0) ∨
            t.pix x y = u.pix x y := by
  rw [tile_is_same]
  split
  · next hne =>
    refine ⟨fun h => absurd h Bool.false_ne_true, fun h => absurd ?_ hne⟩
    rw [h.1, h.2.1]
  · next hne =>
    rw [not_not, Prod.mk.injEq] at hne
    simp [List.all_eq_true, List.mem_range, pixelMatch_iff, hne.1, hne.2]

theorem tile_is_same_rfl (a : Image) : tile_is_same a a = true :=
  (tile_is_same_iff a a).mpr ⟨rfl, rfl, fun _ _ _ _ => Or.inr rfl⟩

theorem tile_is_same_true_symm {a b : Image}
    (h : tile_is_same a b = true) : tile_is_same b a = true := by
  rw [tile_is_same_iff] at h ⊢
  obtain ⟨hw, hh, hp⟩ := h
  refine ⟨hw.symm, hh.symm, fun y hy x hx => ?_⟩
  rcases hp y (by omega) x (by omega) with ⟨h1, h2⟩ | h3
  · exact Or.inl ⟨h2, h1⟩
  · exact Or.inr h3.symm

theorem tile_is_same_symm (a b : Image) :
    tile_is_same a b = tile_is_same b a := by
  rw [Bool.eq_iff_iff]
  exact ⟨tile_is_same_true_symm, tile_is_same_true_symm⟩

theorem tile_is_same_trans {a b c : Image}
    (h1 : tile_is_same a b = true) (h2 : tile_is_same b c = true) :
    tile_is_same a c = true := by
  rw [tile_is_same_iff] at h1 h2 ⊢
  obtain ⟨hw1, hh1, hp1⟩ := h1
  obtain ⟨hw2, hh2, hp2⟩ := h2
  refine ⟨hw1.trans hw2, hh1.trans hh2, fun y hy x hx => ?_⟩
  rcases hp1 y hy x hx with ⟨ha, hb⟩ | hab
  · rcases hp2 y (by omega) x (by omega) with ⟨_, hc⟩ | hbc
    · exact Or.inl ⟨ha, hc⟩
    · exact Or.inl ⟨ha, by rw [← hbc]; exact hb⟩
  · rcases hp2 y (by omega) x (by omega) with ⟨hb2, hc⟩ | hbc
    · exact Or.inl ⟨by rw [hab]; exact hb2, hc⟩
    · exact Or.inr (hab.trans hbc)

/-- C1: `tile_is_same` returns true iff the two tiles have identical width
and height and, at every pixel position, either both pixels have alpha 0 or
the two 4-channel (R,G,B,A) tuples are identical; consequently differences
confined to pixels where both alphas are 0 are ignored, and any channel
difference at a pixel where some side has positive alpha breaks equality. -/
theorem tile_is_same_characterization (t u : Image) :
    tile_is_same t u = true ↔
      t.width = u.width ∧ t.height = u.height ∧
        ∀ y < t.height, ∀ x < t.width,
          (alphaOf (t.pix x y) = 0 ∧ alphaOf (u.pix x y) = 0) ∨
            t.pix x y = u.pix x y :=
  tile_is_same_iff t u

/-- A 1x1 tile whose only pixel is (10, 20, 30) with alpha 0. -/
def tA : Image := { width := 1, height := 1, pix := fun _ _ => (10, 20, 30, 0) }

/-- A 1x1 tile whose only pixel is (200, 200, 200) with alpha 0. -/
def tB : Image :=
  { width := 1, height := 1, pix := fun _ _ => (200, 200, 200, 0) }

/-- A 1x1 tile whose only pixel is (5, 5, 5) with alpha 0. -/
def tC : Image := { width := 1, height := 1, pix := fun _ _ => (5, 5, 5, 0) }

/-- Witness for C1: the transparency wildcard at work on two concrete
tiles differing only behind alpha 0. -/
theorem tile_is_same_characterization_witness : tile_is_same tA tB = true :=
  (tile_is_same_characterization tA tB).mpr
    ⟨rfl, rfl, fun _ _ _ _ => Or.inl ⟨rfl, rfl⟩⟩

/-! ### The fused extraction loop refines the spec-side deduplicator -/

theorem foldl_addTile_eq (l : List Image) :
    ∀ acc : List Image, l.foldl addTile acc = acc ++ dedupSpecAux acc l := by
  induction l with
  | nil => intro acc; simp [dedupSpecAux]
  | cons t ts ih =>
    intro acc
    rw [List.foldl_cons, addTile, dedupSpecAux]
    by_cases h : acc.any (fun u => tile_is_same u t) = true
    · rw [if_pos h, if_pos h, ih]
    · rw [if_neg h, if_neg h, ih, List.append_assoc]
      rfl

theorem foldl_flatMap {α β γ : Type} (f : α → List β) (g : γ → β → γ) :
    ∀ (l : List α) (init : γ),
      (l.flatMap f).foldl g init =
        l.foldl (fun acc a => (f a).foldl g acc) init := by
  intro l
  induction l with
  | nil => intro init; rfl
  | cons a as ih =>
    intro init
    rw [List.flatMap_cons, List.foldl_append, List.foldl_cons, ih]

theorem create_eq_dedup (im : Image) (tw th : Nat) :
    create_tile_list im tw th = dedupSpec (rasterTiles im tw th) := by
  have h := foldl_addTile_eq (rasterTiles im tw th) []
  rw [List.nil_append] at h
  rw [dedupSpec, ← h, rasterTiles, foldl_flatMap, create_tile_list]
  simp only [List.foldl_map]

theorem dedupSpecAux_sublist :
    ∀ (l kept : List Image), (dedupSpecAux kept l).Sublist l := by
  intro l
  induction l with
  | nil => intro kept; simp [dedupSpecAux]
  | cons t ts ih =>
    intro kept
    rw [dedupSpecAux]
    split
    · exact (ih kept).cons t
    · exact (ih (kept ++ [t])).cons₂ t

/-- C3: the returned list is the subsequence of the row-major crop sequence
obtained by keeping each tile that matches no earlier-kept tile under
`tile_is_same`: order is first-occurrence order of the source scan. -/
theorem create_tile_list_firstSeen (im : Image) (tw th : Nat) :
    create_tile_list im tw th = dedupSpec (rasterTiles im tw th) ∧
      (create_tile_list im tw th).Sublist (rasterTiles im tw th) := by
  refine ⟨create_eq_dedup im tw th, ?_⟩
  rw [create_eq_dedup, dedupSpec]
  exact dedupSpecAux_sublist _ _

/-! ### Pairwise uniqueness of the deduplicated list -/

theorem pairwise_kept_dedup :
    ∀ (l kept : List Image),
      kept.Pairwise (fun a b => tile_is_same a b = false) →
      (kept ++ dedupSpecAux kept l).Pairwise
        (fun a b => tile_is_same a b = false) := by
  intro l
  induction l with
  | nil => intro kept h; simpa [dedupSpecAux] using h
  | cons t ts ih =>
    intro kept h
    rw [dedupSpecAux]
    split
    · exact ih kept h
    · next hany =>
      have hnot : ∀ u ∈ kept, tile_is_same u t = false := by
        intro u hu
        by_contra hne
        exact hany (List.any_eq_true.mpr
          ⟨u, hu, by simpa [Bool.not_eq_false] using hne⟩)
      have h2 : (kept ++ [t]).Pairwise
          (fun a b => tile_is_same a b = false) := by
        rw [List.pairwise_append]
        refine ⟨h, List.pairwise_singleton _ _, ?_⟩
        intro a ha b hb
        rw [List.mem_singleton] at hb
        subst hb
        exact hnot a ha
      have h3 := ih (kept ++ [t]) h2
      rw [List.append_assoc] at h3
      simpa using h3

theorem dedupSpec_pairwise (l : List Image) :
    (dedupSpec l).Pairwise (fun a b => tile_is_same a b = false) := by
  have h := pairwise_kept_dedup l [] List.Pairwise.nil
  simpa [dedupSpec] using h

/-- C2: no two tiles at distinct indices of the returned list are equal
under the transparency-aware predicate. -/
theorem create_tile_list_no_duplicates (im : Image) (tw th : Nat)
    (_htw : 0 < tw) (_hth : 0 < th) :
    ∀ (i j : Nat) (hi : i < (create_tile_list im tw th).length)
      (hj : j < (create_tile_list im tw th).length), i ≠ j →
      tile_is_same ((create_tile_list im tw th).get ⟨i, hi⟩)
        ((create_tile_list im tw th).get ⟨j, hj⟩) = false := by
  intro i j hi hj hij
  have hp : (create_tile_list im tw th).Pairwise
      (fun a b => tile_is_same a b = false) := by
    rw [create_eq_dedup]
    exact dedupSpec_pairwise _
  rw [List.pairwise_iff_get] at hp
  rcases Nat.lt_or_ge i j with h | h
  · exact hp ⟨i, hi⟩ ⟨j, hj⟩ h
  · have hji : j < i := lt_of_le_of_ne h (Ne.symm hij)
    rw [tile_is_same_symm]
    exact hp ⟨j, hj⟩ ⟨i, hi⟩ hji

/-! ### The grid of cropped rectangles (C4) -/

theorem flatMap_range_map_length {β : Type} (g : Nat → Nat → β)
    (n : Nat) :
    ∀ m : Nat,
      ((List.range m).flatMap fun y =>
        (List.range n).map fun x => g x y).length = m * n := by
  intro m
  induction m with
  | zero => simp
  | succ m ih =>
    rw [List.range_succ, List.flatMap_append, List.length_append, ih]
    simp [Nat.succ_mul]

theorem flatMap_range_map_getElem {β : Type} (g : Nat → Nat → β)
    (n : Nat) :
    ∀ (m row col : Nat), row < m → col < n →
      ((List.range m).flatMap fun y =>
        (List.range n).map fun x => g x y)[row * n + col]? =
        some (g col row) := by
  intro m
  induction m with
  | zero => intro row col h; omega
  | succ m ih =>
    intro row col hrow hcol
    rw [List.range_succ, List.flatMap_append]
    rcases Nat.lt_or_ge row m with h | h
    · rw [List.getElem?_append_left, ih row col h hcol]
      rw [flatMap_range_map_length]
      have h1 : row * n + n ≤ m * n := by
        have := Nat.mul_le_mul_right n (Nat.succ_le_of_lt h)
        rwa [Nat.succ_mul] at this
      omega
    · have hrm : row = m := by omega
      subst hrm
      rw [List.getElem?_append_right, flatMap_range_map_length]
      · rw [Nat.add_sub_cancel_left]
        simp [List.getElem?_map, List.getElem?_range hcol]
      · rw [flatMap_range_map_length]; omega

theorem rasterTiles_length (im : Image) (tw th : Nat) :
    (rasterTiles im tw th).length = (im.height / th) * (im.width / tw) := by
  rw [rasterTiles]
  exact flatMap_range_map_length _ _ _

theorem rasterTiles_getElem (im : Image) (tw th : Nat)
    (row col : Nat) (hrow : row < im.height / th)
    (hcol : col < im.width / tw) :
    (rasterTiles im tw th)[row * (im.width / tw) + col]? =
      some (crop im (col * tw) (row * th)
        (col * tw + tw) (row * th + th)) := by
  rw [rasterTiles]
  exact flatMap_range_map_getElem _ _ _ row col hrow hcol

theorem mem_rasterTiles {im : Image} {tw th : Nat} {t : Image}
    (ht : t ∈ rasterTiles im tw th) :
    ∃ col row, col < im.width / tw ∧ row < im.height / th ∧
      t = crop im (col * tw) (row * th) (col * tw + tw) (row * th + th) := by
  rw [rasterTiles] at ht
  simp only [List.mem_flatMap, List.mem_map, List.mem_range] at ht
  obtain ⟨row, hrow, col, hcol, rfl⟩ := ht
  exact ⟨col, row, hcol, hrow, rfl⟩

/-- C4: the extractor crops exactly the half-open grid rectangles
`[col*tw, row*th, col*tw+tw, row*th+th)` for `row < height/th` and
`col < width/tw`, visited in row-major order (the crop of cell
`(row, col)` sits at linear index `row * cols + col`), and every pixel of
every produced tile is drawn from the top-left
`(cols*tw) × (rows*th)` region of the source image. -/
theorem create_tile_list_grid_crops (im : Image) (tw th : Nat) :
    ((rasterTiles im tw th).length =
      (im.height / th) * (im.width / tw)) ∧
    (∀ row col, row < im.height / th → col < im.width / tw →
      (rasterTiles im tw th)[row * (im.width / tw) + col]? =
        some (crop im (col * tw) (row * th)
          (col * tw + tw) (row * th + th))) ∧
    (∀ t ∈ create_tile_list im tw th, ∀ dx dy, dx < tw → dy < th →
      ∃ sx sy, sx < (im.width / tw) * tw ∧ sy < (im.height / th) * th ∧
        t.pix dx dy = im.pix sx sy) := by
  refine ⟨rasterTiles_length im tw th,
    fun row col hrow hcol => rasterTiles_getElem im tw th row col hrow hcol,
    ?_⟩
  intro t ht dx dy hdx hdy
  have hmem : t ∈ rasterTiles im tw th := by
    have hsub : (create_tile_list im tw th).Sublist (rasterTiles im tw th) := by
      rw [create_eq_dedup, dedupSpec]
      exact dedupSpecAux_sublist _ _
    exact hsub.subset ht
  obtain ⟨col, row, hcol, hrow, rfl⟩ := mem_rasterTiles hmem
  refine ⟨col * tw + dx, row * th + dy, ?_, ?_, rfl⟩
  · calc col * tw + dx < col * tw + tw := by omega
      _ = (col + 1) * tw := by rw [Nat.succ_mul]
      _ ≤ (im.width / tw) * tw := Nat.mul_le_mul_right tw hcol
  · calc row * th + dy < row * th + th := by omega
      _ = (row + 1) * th := by rw [Nat.succ_mul]
      _ ≤ (im.height / th) * th := Nat.mul_le_mul_right th hrow

/-- A 20x20 source image whose pixel at `(x, y)` is `(x, y, 0, 255)`. -/
def img20 : Image :=
  { width := 20, height := 20, pix := fun x y => (x, y, 0, 255) }

/-- Witness for C4 on the spec's 20x20 example with 8x8 tiles: the grid is
2x2, cell `(1, 1)` sits at linear index 3 and is the crop `[8, 8, 16, 16)`,
and the top-left pixel of the first kept tile is drawn from the 16x16
region. -/
theorem create_tile_list_grid_crops_witness :
    (rasterTiles img20 8 8)[3]? = some (crop img20 8 8 16 16) ∧
    (∃ sx sy, sx < 16 ∧ sy < 16 ∧
      (crop img20 0 0 8 8).pix 0 0 = img20.pix sx sy) := by
  constructor
  · have h := (create_tile_list_grid_crops img20 8 8).2.1 1 1
      (by decide) (by decide)
    simpa using h
  · have h := (create_tile_list_grid_crops img20 8 8).2.2
      (crop img20 0 0 8 8) (List.mem_cons_self _ _) 0 0
      (by decide) (by decide)
    simpa using h

/-! ### The packer (C5, C6, C7) -/

theorem paste_width (dst src : Image) (ox oy : Nat) :
    (paste dst src ox oy).width = dst.width := rfl

theorem paste_height (dst src : Image) (ox oy : Nat) :
    (paste dst src ox oy).height = dst.height := rfl

theorem pasteTiles_width (tw th : Nat) :
    ∀ (l : List Image) (ts : Image) (i : Nat),
      (pasteTiles tw th ts i l).width = ts.width := by
  intro l
  induction l with
  | nil => intro ts i; rfl
  | cons t rest ih => intro ts i; rw [pasteTiles]; exact ih _ _

theorem pasteTiles_height (tw th : Nat) :
    ∀ (l : List Image) (ts : Image) (i : Nat),
      (pasteTiles tw th ts i l).height = ts.height := by
  intro l
  induction l with
  | nil => intro ts i; rfl
  | cons t rest ih => intro ts i; rw [pasteTiles]; exact ih _ _

theorem save_to_tileset_width (l : List Image) (tw th : Nat) :
    (save_to_tileset l tw th).width =
      if l.length < 16 then l.length * tw else 16 * tw := by
  rw [save_to_tileset]
  exact pasteTiles_width tw th l _ 0

theorem save_to_tileset_height (l : List Image) (tw th : Nat) :
    (save_to_tileset l tw th).height = (l.length / 16 + 1) * th := by
  rw [save_to_tileset]
  exact pasteTiles_height tw th l _ 0

/-- Only one grid cell can cover a given output pixel (tiles sizes are
positive, cells are disjoint). -/
theorem add_one_mul_eq (a b : Nat) : (a + 1) * b = a * b + b := by
  rw [Nat.add_mul, Nat.one_mul]

theorem coveredBy_inj {tw th : Nat} (_htw : 0 < tw) (_hth : 0 < th)
    {i j x y : Nat} (hi : coveredBy i tw th x y)
    (hj : coveredBy j tw th x y) : i = j := by
  obtain ⟨hi1, hi2, hi3, hi4⟩ := hi
  obtain ⟨hj1, hj2, hj3, hj4⟩ := hj
  have hx : i % 16 = j % 16 := by
    have h1 : x / tw = i % 16 :=
      Nat.div_eq_of_lt_le hi1 (by rw [add_one_mul_eq]; exact hi2)
    have h2 : x / tw = j % 16 :=
      Nat.div_eq_of_lt_le hj1 (by rw [add_one_mul_eq]; exact hj2)
    omega
  have hy : i / 16 = j / 16 := by
    have h1 : y / th = i / 16 :=
      Nat.div_eq_of_lt_le hi3 (by rw [add_one_mul_eq]; exact hi4)
    have h2 : y / th = j / 16 :=
      Nat.div_eq_of_lt_le hj3 (by rw [add_one_mul_eq]; exact hj4)
    omega
  omega

theorem pasteTiles_pix_of_notCovered (tw th : Nat) :
    ∀ (l : List Image) (ts : Image) (i x y : Nat),
      (∀ t ∈ l, t.width = tw ∧ t.height = th) →
      (∀ j, j < l.length → ¬ coveredBy (i + j) tw th x y) →
      (pasteTiles tw th ts i l).pix x y = ts.pix x y := by
  intro l
  induction l with
  | nil => intro ts i x y _ _; rfl
  | cons t rest ih =>
    intro ts i x y hsz hnc
    rw [pasteTiles]
    rw [ih _ (i + 1) x y (fun u hu => hsz u (List.mem_cons_of_mem _ hu))
      (fun j hj => by
        have h := hnc (j + 1) (by simpa using Nat.succ_lt_succ hj)
        rwa [← Nat.add_assoc, Nat.add_right_comm] at h)]
    have h0 := hnc 0 (by simp)
    rw [Nat.add_zero] at h0
    rw [paste]
    simp only []
    rw [if_neg]
    intro hcov
    exact h0 (by
      obtain ⟨h1, h2, h3, h4⟩ := hcov
      obtain ⟨hwid, hhgt⟩ := hsz t (List.mem_cons_self _ _)
      rw [hwid] at h2
      rw [hhgt] at h4
      exact ⟨h1, h2, h3, h4⟩)

theorem pasteTiles_pix_of_covered (tw th : Nat) (htw : 0 < tw)
    (hth : 0 < th) :
    ∀ (l : List Image) (ts : Image) (i : Nat) (j : Nat)
      (hj : j < l.length) (x y : Nat),
      (∀ t ∈ l, t.width = tw ∧ t.height = th) →
      coveredBy (i + j) tw th x y →
      (pasteTiles tw th ts i l).pix x y =
        (l.get ⟨j, hj⟩).pix (x - ((i + j) % 16) * tw)
          (y - ((i + j) / 16) * th) := by
  intro l
  induction l with
  | nil => intro ts i j hj; exact absurd hj (by simp)
  | cons t rest ih =>
    intro ts i j hj x y hsz hcov
    rcases j with _ | j
    · rw [Nat.add_zero] at hcov
      rw [pasteTiles]
      rw [pasteTiles_pix_of_notCovered tw th rest _ (i + 1) x y
        (fun u hu => hsz u (List.mem_cons_of_mem _ hu))
        (fun j' hj' hcov' => by
          have : i + 1 + j' = i := coveredBy_inj htw hth hcov' hcov
          omega)]
      rw [Nat.add_zero]
      obtain ⟨h1, h2, h3, h4⟩ := hcov
      obtain ⟨hwid, hhgt⟩ := hsz t (List.mem_cons_self _ _)
      rw [paste]
      simp only []
      rw [if_pos ⟨h1, by rwa [hwid], h3, by rwa [hhgt]⟩]
      rfl
    · rw [pasteTiles]
      have hcov' : coveredBy (i + 1 + j) tw th x y := by
        rwa [← Nat.add_assoc, Nat.add_right_comm] at hcov
      rw [ih _ (i + 1) j (by simpa using Nat.lt_of_succ_lt_succ hj) x y
        (fun u hu => hsz u (List.mem_cons_of_mem _ hu)) hcov']
      have heq : i + 1 + j = i + (j + 1) := by omega
      rw [heq]
      rfl

/-- C5: the tile at list index `i` is pasted with its top-left corner at
output offset `((i mod 16) * tile_w, (i div 16) * tile_h)`, overwriting the
destination, and every output pixel covered by no tile rectangle is the
fully transparent pixel (zero in every channel). -/
theorem save_to_tileset_placement (l : List Image) (tw th : Nat)
    (htw : 0 < tw) (hth : 0 < th)
    (hsz : ∀ t ∈ l, t.width = tw ∧ t.height = th) :
    (∀ (i : Nat) (hi : i < l.length) (dx dy : Nat), dx < tw → dy < th →
      (save_to_tileset l tw th).pix ((i % 16) * tw + dx)
        ((i / 16) * th + dy) = (l.get ⟨i, hi⟩).pix dx dy) ∧
    (∀ x y : Nat, (∀ i, i < l.length → ¬ coveredBy i tw th x y) →
      (save_to_tileset l tw th).pix x y = transparentPixel) := by
  constructor
  · intro i hi dx dy hdx hdy
    simp only [save_to_tileset]
    have hcov : coveredBy (0 + i) tw th
        ((i % 16) * tw + dx) ((i / 16) * th + dy) := by
      rw [Nat.zero_add]
      exact ⟨Nat.le_add_right _ _, by omega, Nat.le_add_right _ _, by omega⟩
    rw [pasteTiles_pix_of_covered tw th htw hth l _ 0 i hi _ _ hsz hcov]
    simp only [Nat.zero_add, Nat.add_sub_cancel_left]
  · intro x y hnc
    simp only [save_to_tileset]
    rw [pasteTiles_pix_of_notCovered tw th l _ 0 x y hsz
      (fun j hj => by rw [Nat.zero_add]; exact hnc j hj)]

/-- A solid opaque red 8x8 tile. -/
def redTile : Image := { width := 8, height := 8, pix := fun _ _ => (255, 0, 0, 255) }

/-- A solid opaque blue 8x8 tile. -/
def blueTile : Image := { width := 8, height := 8, pix := fun _ _ => (0, 0, 255, 255) }

/-- Witness for C5 on a concrete two-tile list: tile 1 lands at offset
`(8, 0)` and an uncovered pixel is fully transparent. -/
theorem save_to_tileset_placement_witness :
    (save_to_tileset [redTile, blueTile] 8 8).pix 8 0 = blueTile.pix 0 0 ∧
      (save_to_tileset [redTile, blueTile] 8 8).pix 100 0 =
        transparentPixel := by
  have hsz : ∀ t ∈ [redTile, blueTile], t.width = 8 ∧ t.height = 8 := by
    intro t ht
    rcases List.mem_cons.mp ht with rfl | ht
    · exact ⟨rfl, rfl⟩
    · rcases List.mem_cons.mp ht with rfl | ht
      · exact ⟨rfl, rfl⟩
      · cases ht
  constructor
  · have h := (save_to_tileset_placement [redTile, blueTile] 8 8
      (by decide) (by decide) hsz).1 1 (by decide) 0 0 (by decide) (by decide)
    simpa using h
  · exact (save_to_tileset_placement [redTile, blueTile] 8 8
      (by decide) (by decide) hsz).2 100 0 (by decide)

/-- C6: the packer allocates an output image of width
`tile_w * min(N, 16)` and height `tile_h * (N / 16 + 1)`. -/
theorem save_to_tileset_dimensions (l : List Image) (tw th : Nat) :
    (save_to_tileset l tw th).width = tw * min l.length 16 ∧
    (save_to_tileset l tw th).height = th * (l.length / 16 + 1) := by
  refine ⟨?_, ?_⟩
  · rw [save_to_tileset_width]
    rcases Nat.lt_or_ge l.length 16 with h | h
    · rw [if_pos h, Nat.min_eq_left (Nat.le_of_lt h), Nat.mul_comm]
    · rw [if_neg (Nat.not_lt.mpr h), Nat.min_eq_right h, Nat.mul_comm]
  · rw [save_to_tileset_height, Nat.mul_comm]

/-- An 8x8 tile whose pixels all carry the red value `c`, fully opaque. -/
def mkTile (c : Nat) : Image :=
  { width := 8, height := 8, pix := fun _ _ => (c, 0, 0, 255) }

/-- Sixteen pairwise-distinct opaque 8x8 tiles. -/
def tiles16 : List Image := (List.range 16).map mkTile

/-- Seventeen pairwise-distinct opaque 8x8 tiles. -/
def tiles17 : List Image := (List.range 17).map mkTile

/-- Counterexample to C7 as stated: for N = 16 tiles of size 8x8 the code
allocates height `(16 / 16 + 1) * 8 = 16`, while the claimed formula
`ceil(N / 16) * tile_h = ((N + 16 - 1) / 16) * tile_h` gives 8. -/
theorem save_to_tileset_ceil_counterexample :
    (save_to_tileset tiles16 8 8).height = 16 ∧
      ((tiles16.length + 16 - 1) / 16) * 8 = 8 ∧
      (save_to_tileset tiles16 8 8).height ≠
        ((tiles16.length + 16 - 1) / 16) * 8 := by
  refine ⟨?_, by decide, ?_⟩
  · rw [save_to_tileset_height]
    decide
  · rw [save_to_tileset_height]
    decide

/-- C7 (amended): the packed tileset has width `min(N, 16) * tile_w` and
height `(N / 16 + 1) * tile_h` (floored division, one extra row always
allocated — not `ceil(N / 16)`); in particular for N = 17 tiles at 8x8 the
output image is 128x16. -/
theorem save_to_tileset_dimensions_floor (l : List Image) (tw th : Nat) :
    (save_to_tileset l tw th).width = min l.length 16 * tw ∧
    (save_to_tileset l tw th).height = (l.length / 16 + 1) * th ∧
    (l.length = 17 → tw = 8 → th = 8 →
      (save_to_tileset l tw th).width = 128 ∧
      (save_to_tileset l tw th).height = 16) := by
  refine ⟨?_, save_to_tileset_height l tw th, ?_⟩
  · rw [save_to_tileset_width]
    rcases Nat.lt_or_ge l.length 16 with h | h
    · rw [if_pos h, Nat.min_eq_left (Nat.le_of_lt h)]
    · rw [if_neg (Nat.not_lt.mpr h), Nat.min_eq_right h]
  · rintro hN rfl rfl
    refine ⟨?_, ?_⟩
    · rw [save_to_tileset_width, hN]
      norm_num
    · rw [save_to_tileset_height, hN]

/-- Witness for the amended C7 at a concrete 17-tile list. -/
theorem save_to_tileset_dimensions_floor_witness :
    (save_to_tileset tiles17 8 8).width = 128 ∧
      (save_to_tileset tiles17 8 8).height = 16 :=
  (save_to_tileset_dimensions_floor tiles17 8 8).2.2 (by decide) rfl rfl

/-! ### Repeated-pattern images collapse to a single tile (C8) -/

theorem dedupSpecAux_nil_of_matched :
    ∀ (l kept : List Image),
      (∀ u ∈ l, ∃ v ∈ kept, tile_is_same v u = true) →
      dedupSpecAux kept l = [] := by
  intro l
  induction l with
  | nil => intro kept _; rfl
  | cons t ts ih =>
    intro kept h
    rw [dedupSpecAux]
    have hm : kept.any (fun u => tile_is_same u t) = true := by
      obtain ⟨v, hv, hsame⟩ := h t (List.mem_cons_self _ _)
      exact List.any_eq_true.mpr ⟨v, hv, hsame⟩
    rw [if_pos hm]
    exact ih kept (fun u hu => h u (List.mem_cons_of_mem _ hu))

theorem dedupSpec_single (t : Image) (ts : List Image)
    (h : ∀ u ∈ ts, tile_is_same t u = true) :
    dedupSpec (t :: ts) = [t] := by
  rw [dedupSpec, dedupSpecAux, if_neg (by simp), List.nil_append]
  rw [dedupSpecAux_nil_of_matched ts [t]
    (fun u hu => ⟨t, List.mem_singleton_self t, h u hu⟩)]

theorem gridImage_crops_same (p : Image) (k : Nat) :
    ∀ a ∈ rasterTiles (gridImage p k) p.width p.height,
      ∀ b ∈ rasterTiles (gridImage p k) p.width p.height,
        tile_is_same a b = true := by
  intro a ha b hb
  obtain ⟨ca, ra, hca, hra, rfl⟩ := mem_rasterTiles ha
  obtain ⟨cb, rb, hcb, hrb, rfl⟩ := mem_rasterTiles hb
  rw [tile_is_same_iff]
  refine ⟨by simp [crop], by simp [crop], ?_⟩
  intro y _ x _
  right
  show (gridImage p k).pix (ca * p.width + x) (ra * p.height + y) =
    (gridImage p k).pix (cb * p.width + x) (rb * p.height + y)
  simp only [gridImage]
  rw [Nat.mul_add_mod', Nat.mul_add_mod', Nat.mul_add_mod', Nat.mul_add_mod']

/-- C8: extraction on an image that is a `k × k` grid of identical copies
of a `tile_w × tile_h` pattern yields exactly one tile, for every k ≥ 1. -/
theorem create_tile_list_grid_single (p : Image) (k : Nat) (hk : 1 ≤ k)
    (hw : 0 < p.width) (hh : 0 < p.height) :
    (create_tile_list (gridImage p k) p.width p.height).length = 1 := by
  rw [create_eq_dedup]
  have hlen :
      (rasterTiles (gridImage p k) p.width p.height).length = k * k := by
    rw [rasterTiles_length]
    show k * p.height / p.height * (k * p.width / p.width) = k * k
    rw [Nat.mul_div_cancel k hh, Nat.mul_div_cancel k hw]
  have hne : rasterTiles (gridImage p k) p.width p.height ≠ [] := by
    intro h0
    rw [h0] at hlen
    have hpos : 0 < k * k := Nat.mul_pos hk hk
    simp at hlen
    omega
  obtain ⟨t, ts, heq⟩ := List.exists_cons_of_ne_nil hne
  rw [heq, dedupSpec_single t ts (fun u hu =>
    gridImage_crops_same p k t
      (by rw [heq]; exact List.mem_cons_self _ _) u
      (by rw [heq]; exact List.mem_cons_of_mem _ hu))]
  rfl

/-- A 1x1 fully opaque single-pixel pattern. -/
def pat1 : Image := { width := 1, height := 1, pix := fun _ _ => (7, 7, 7, 255) }

/-- Witness for C8: a 2x2 grid of a 1x1 pattern extracts to a single tile. -/
theorem create_tile_list_grid_single_witness :
    (create_tile_list (gridImage pat1 2) pat1.width pat1.height).length = 1 :=
  create_tile_list_grid_single pat1 2 (by decide) (by decide) (by decide)

/-! ### Oversized tile dimensions give an empty list (C9) -/

theorem foldl_self {α β : Type} :
    ∀ (l : List α) (a : β), l.foldl (fun x _ => x) a = a := by
  intro l
  induction l with
  | nil => intro a; rfl
  | cons x xs ih => intro a; rw [List.foldl_cons]; exact ih a

/-- C9: when the tile width exceeds the image width or the tile height
exceeds the image height (the floored quotient is 0), `create_tile_list`
returns the empty list — a normal result, not an error. -/
theorem create_tile_list_empty_of_large_tile (im : Image) (tw th : Nat)
    (h : im.width < tw ∨ im.height < th) :
    create_tile_list im tw th = [] := by
  rw [create_tile_list]
  rcases h with h | h
  · rw [Nat.div_eq_of_lt h]
    simp only [List.range_zero, List.foldl_nil]
    exact foldl_self _ []
  · rw [Nat.div_eq_of_lt h]
    simp

/-- A 4x4 opaque image, smaller than an 8x8 tile in both dimensions. -/
def img4 : Image := { width := 4, height := 4, pix := fun _ _ => (1, 2, 3, 255) }

/-- Witness for C9: an 8x8 tile on a 4x4 image extracts nothing. -/
theorem create_tile_list_empty_of_large_tile_witness :
    create_tile_list img4 8 8 = [] :=
  create_tile_list_empty_of_large_tile img4 8 8 (Or.inl (by decide))

/-! ### The predicate is an equivalence (C10) -/

/-- C10: `tile_is_same` is reflexive, symmetric and transitive. -/
theorem tile_is_same_equivalence :
    (∀ a : Image, tile_is_same a a = true) ∧
    (∀ a b : Image, tile_is_same a b = tile_is_same b a) ∧
    (∀ a b c : Image, tile_is_same a b = true → tile_is_same b c = true →
      tile_is_same a c = true) :=
  ⟨tile_is_same_rfl, tile_is_same_symm,
    fun _ _ _ h1 h2 => tile_is_same_trans h1 h2⟩

/-- Witness for C10: transitivity chained through concrete transparent
tiles with three different colors hidden behind alpha 0. -/
theorem tile_is_same_equivalence_witness : tile_is_same tA tC = true :=
  tile_is_same_equivalence.2.2 tA tB tC (by decide) (by decide)

/-- A 16x8 image, left half opaque red and right half opaque blue. -/
def imgRB : Image :=
  { width := 16, height := 8
    pix := fun x _ => if x < 8 then (255, 0, 0, 255) else (0, 0, 255, 255) }

/-- Witness for C2: the two distinct kept tiles of the red/blue image are
not `tile_is_same`. -/
theorem create_tile_list_no_duplicates_witness :
    tile_is_same ((create_tile_list imgRB 8 8).get ⟨0, by decide⟩)
      ((create_tile_list imgRB 8 8).get ⟨1, by decide⟩) = false :=
  create_tile_list_no_duplicates imgRB 8 8 (by decide) (by decide) 0 1
    (by decide) (by decide) (by decide)
